import Mathlib

/-!
Shallow embedding of the `clikeys` / `clikeys-derive` configuration-override
system (repository `khoek/ferramentum`).

The embedding covers:
* the leaf registry (`ParseFromStr` impls in `clikeys/src/lib.rs`, delegating
  to Rust's standard `FromStr` / `Display` for each primitive type);
* `split_once`, `prefix_meta`, `format_options_help` from `clikeys/src/lib.rs`;
* the dispatch code generated by `impl_clikeys` in `clikeys-derive/src/lib.rs`
  (`apply_kv`, `options_meta`, `new_with_options`), modelled generically over
  an arbitrary derived struct: a config instance is a tree of field instances
  carrying the declaration-time attributes (`rename`, `help`, `ns`, `skip`)
  that drive the generated match arms.

Floating-point leaf types (`f32`, `f64`) are outside the embedding; the
integer widths assume the usual 64-bit target (`usize` = 64 bits).
-/

namespace Clikeys

/-! ## Leaf registry: Rust integer / bool / String parsing (`FromStr`) -/

/-- Models `char::to_digit(10)`: the numeric value of a decimal digit. -/
def digitVal (c : Char) : Option Nat :=
  if '0' ≤ c ∧ c ≤ '9' then some (c.toNat - '0'.toNat) else none

/-- Models the digit-accumulation loop of Rust's `from_str_radix` at radix 10
(checked multiply-add against the type's maximum; a non-digit character is
`InvalidDigit`, exceeding the bound yields the overflow message `ovMsg`). -/
def parseDigitsLoop (bound : Nat) (ovMsg : String) : List Char → Nat → Except String Nat
  | [], acc => .ok acc
  | c :: cs, acc =>
    match digitVal c with
    | none => .error "invalid digit found in string"
    | some d =>
      if bound < acc * 10 + d then .error ovMsg
      else parseDigitsLoop bound ovMsg cs (acc * 10 + d)

/-- Models `<uN as FromStr>::from_str`: empty input is an error, a sole sign
character is `InvalidDigit`, a leading `+` is stripped, and a `-` is not a
sign for unsigned types (it reaches the digit loop and fails there), exactly
as in core's `from_str_radix`. -/
def parseUnsigned (bound : Nat) (s : String) : Except String Nat :=
  match s.data with
  | [] => .error "cannot parse integer from empty string"
  | c :: cs =>
    if c = '+' ∨ c = '-' then
      if cs = [] then .error "invalid digit found in string"
      else if c = '+' then
        parseDigitsLoop bound "number too large to fit in target type" cs 0
      else
        parseDigitsLoop bound "number too large to fit in target type" (c :: cs) 0
    else
      parseDigitsLoop bound "number too large to fit in target type" (c :: cs) 0

/-- Models `<iN as FromStr>::from_str`. Rust accumulates negative inputs
downward with `checked_sub` against `iN::MIN`; this is its absolute-value
form: digits of a `-`-signed input are accumulated upward against
`minAbs = |iN::MIN|` and the result negated, which performs the same checks
in the same order and produces the same results and messages. -/
def parseSigned (minAbs bound : Nat) (s : String) : Except String Int :=
  match s.data with
  | [] => .error "cannot parse integer from empty string"
  | c :: cs =>
    if c = '+' ∨ c = '-' then
      if cs = [] then .error "invalid digit found in string"
      else if c = '+' then
        (parseDigitsLoop bound "number too large to fit in target type" cs 0).map Int.ofNat
      else
        (parseDigitsLoop minAbs "number too small to fit in target type" cs 0).map
          (fun n => -(n : Int))
    else
      (parseDigitsLoop bound "number too large to fit in target type" (c :: cs) 0).map
        Int.ofNat

/-- Models `<bool as FromStr>::from_str`: exactly `"true"` or `"false"`. -/
def parseBool (s : String) : Except String Bool :=
  if s = "true" then .ok true
  else if s = "false" then .ok false
  else .error "provided string was not `true` or `false`"

/-- Leaf type tags recognised by `is_leaf_type` in `clikeys-derive/src/lib.rs`
(`f32` / `f64` are omitted from the embedding). -/
inductive LeafTy where
  | bool
  | usize
  | u32
  | u64
  | i32
  | i64
  | str
  deriving DecidableEq, Repr

/-- Runtime value stored in a leaf field. -/
inductive LeafVal where
  | vBool (b : Bool)
  | vUsize (n : Nat)
  | vU32 (n : Nat)
  | vU64 (n : Nat)
  | vI32 (i : Int)
  | vI64 (i : Int)
  | vStr (s : String)
  deriving DecidableEq, Repr

/-- Models `<T as ParseFromStr>::parse_str` (clikeys/src/lib.rs, lines
96-123): delegate to the type's `FromStr`, with the error stringified;
`String` parses as the identity. -/
def parseLeaf : LeafTy → String → Except String LeafVal
  | .bool, s => (parseBool s).map .vBool
  | .usize, s => (parseUnsigned (2 ^ 64 - 1) s).map .vUsize
  | .u32, s => (parseUnsigned (2 ^ 32 - 1) s).map .vU32
  | .u64, s => (parseUnsigned (2 ^ 64 - 1) s).map .vU64
  | .i32, s => (parseSigned (2 ^ 31) (2 ^ 31 - 1) s).map .vI32
  | .i64, s => (parseSigned (2 ^ 63) (2 ^ 63 - 1) s).map .vI64
  | .str, s => .ok (.vStr s)

/-- Decimal digit character, as produced by Rust's integer `Display`. -/
def digitChar (d : Nat) : Char := Char.ofNat (48 + d)

/-- Models the digit emission of Rust's integer `Display`: most significant
digit first, `0` rendered as `"0"`. -/
def natDigitsAux (n : Nat) (acc : List Char) : List Char :=
  if h : n < 10 then digitChar n :: acc
  else natDigitsAux (n / 10) (digitChar (n % 10) :: acc)
  termination_by n
  decreasing_by exact Nat.div_lt_self (by omega) (by omega)

/-- Models `<uN as Display>::to_string`. -/
def natToString (n : Nat) : String := ⟨natDigitsAux n []⟩

/-- Models `<iN as Display>::to_string`: minus sign then the absolute value. -/
def intToString (i : Int) : String :=
  if i < 0 then "-" ++ natToString i.natAbs else natToString i.natAbs

/-- Models `to_string` on a leaf value (used for stringified defaults). -/
def leafToString : LeafVal → String
  | .vBool b => if b then "true" else "false"
  | .vUsize n => natToString n
  | .vU32 n => natToString n
  | .vU64 n => natToString n
  | .vI32 i => intToString i
  | .vI64 i => intToString i
  | .vStr s => s

/-- Value denoted by a digit string, accumulated left to right on top of `a`
(non-digits count as 0; the round-trip lemmas only use it on digit strings). -/
def digitsVal : List Char → Nat → Nat
  | [], a => a
  | c :: cs, a => digitsVal cs (a * 10 + (digitVal c).getD 0)

/-- Weight `10 ^ (number of decimal digits of n)`. -/
def decimalWeight (n : Nat) : Nat :=
  if n < 10 then 10 else 10 * decimalWeight (n / 10)
  termination_by n
  decreasing_by exact Nat.div_lt_self (by omega) (by omega)

/-- Type-name string emitted by `is_leaf_type`. -/
def leafTyName : LeafTy → String
  | .bool => "bool"
  | .usize => "usize"
  | .u32 => "u32"
  | .u64 => "u64"
  | .i32 => "i32"
  | .i64 => "i64"
  | .str => "String"

/-- Value `v` is in range for leaf type `t` (64-bit target widths). -/
def LeafWF : LeafTy → LeafVal → Prop
  | .bool, .vBool _ => True
  | .usize, .vUsize n => n < 2 ^ 64
  | .u32, .vU32 n => n < 2 ^ 32
  | .u64, .vU64 n => n < 2 ^ 64
  | .i32, .vI32 i => -(2 ^ 31) ≤ i ∧ i < 2 ^ 31
  | .i64, .vI64 i => -(2 ^ 63) ≤ i ∧ i < 2 ^ 63
  | .str, .vStr _ => True
  | _, _ => False

/-! ## Errors, metadata, and the string helpers of `clikeys/src/lib.rs` -/

/-- Models `NsError` (clikeys/src/lib.rs, lines 3-13). -/
inductive NsError where
  | unknownKey (key : String)
  | parseError (key value msg : String)
  deriving DecidableEq, Repr

/-- Models `OptionMeta` (clikeys/src/lib.rs, lines 15-25). -/
structure OptionMeta where
  key : String
  ty : String
  help : String
  default : String
  deriving DecidableEq, Repr

/-- List-level form of `split_once`: split at the first occurrence of the
delimiter, or `none` if it does not occur. -/
def splitOnceList (delim : Char) : List Char → Option (List Char × List Char)
  | [] => none
  | c :: cs =>
    if c = delim then some ([], cs)
    else (splitOnceList delim cs).map (fun p => (c :: p.1, p.2))

/-- Models `split_once` (clikeys/src/lib.rs, lines 137-140): find the first
occurrence of `delim`, returning the parts before and after it. -/
def splitOnce (s : String) (delim : Char) : Option (String × String) :=
  (splitOnceList delim s.data).map (fun p => (⟨p.1⟩, ⟨p.2⟩))

/-- Models `prefix_meta` (clikeys/src/lib.rs, lines 126-134): prepend
`pre ++ "."` to every key, except when `pre` is empty. -/
def prefixMeta (pre : String) (meta : List OptionMeta) : List OptionMeta :=
  if pre.isEmpty then meta
  else meta.map (fun m => { m with key := pre ++ "." ++ m.key })

/-- Models `m.key.split('.').next()`: the first dot-separated segment of a
key (the whole key when it contains no dot). -/
def firstSegment (k : String) : String :=
  match splitOnce k '.' with
  | some p => p.1
  | none => k

/-- Right-pads a string with spaces to the given width, as Rust's `{:<28}` /
`{:<10}` format specifiers do (strings at or beyond the width are kept). -/
def padRight (s : String) (w : Nat) : String :=
  s ++ ⟨List.replicate (w - s.data.length) ' '⟩

/-- Models one table row of `format_options_help` (clikeys/src/lib.rs, line
84-87): `format!("  {:<28}  default = {:<10}  ({}) {}", key, default, ty,
help)`. The `help` binding in the source maps empty help to the empty
string, so the `" {}"` tail always contributes its leading space. -/
def entryLine (m : OptionMeta) : String :=
  "  " ++ padRight m.key 28 ++ "  default = " ++ padRight m.default 10 ++
    "  (" ++ m.ty ++ ") " ++ m.help

/-- Models Rust's lexicographic `Ord` on `str` (byte-wise comparison; UTF-8
byte order agrees with Unicode scalar order, which is the order on `Char`). -/
def lexLe : List Char → List Char → Bool
  | [], _ => true
  | _ :: _, [] => false
  | a :: as, b :: bs =>
    if a < b then true else if b < a then false else lexLe as bs

/-- String form of `lexLe`. -/
def strLe (a b : String) : Bool := lexLe a.data b.data

/-- Stable insertion into a sorted list: the new element goes before the
first element it is `le`-below, hence after any equal earlier element. -/
def insertLe (le : α → α → Bool) (a : α) : List α → List α
  | [] => [a]
  | b :: l => if le a b then a :: b :: l else b :: insertLe le a l

/-- Stable insertion sort. Rust's `sort` / `sort_by` is a stable ascending
sort, and a stable ascending sort of a given list under a given total
preorder is unique, so this models them faithfully. -/
def sortLe (le : α → α → Bool) : List α → List α
  | [] => []
  | a :: l => insertLe le a (sortLe le l)

/-- Models the sorted group-name list of `format_options_help` (lines 66-72):
the keys of the `into_group_map_by` hash map are the distinct first segments,
and `groups.sort()` puts them in ascending order, which determines the list
uniquely whatever order the hash map yielded them in. -/
def helpGroups (options : List OptionMeta) : List String :=
  sortLe strLe ((options.map (fun m => firstSegment m.key)).dedup)

/-- Models the per-group item list (lines 75-76): `into_group_map_by` packs
the group's entries in iteration order, i.e. the sub-list of `options` whose
first segment is `g`, and `sort_by` then orders them by full key. -/
def groupItems (options : List OptionMeta) (g : String) : List OptionMeta :=
  sortLe (fun a b => strLe a.key b.key)
    (options.filter (fun m => firstSegment m.key = g))

/-- Models the `lines` vector of `format_options_help` (lines 63-89): the
header, then for each group a `"\n<group>.*"` heading and its entry rows. -/
def helpLines (options : List OptionMeta) : List String :=
  "Options (set with -o/--option KEY=VALUE; repeatable):" ::
    (helpGroups options).flatMap
      (fun g => ("\n" ++ g ++ ".*") :: (groupItems options g).map entryLine)

/-- Models `format_options_help` (clikeys/src/lib.rs, lines 61-92):
`lines.join("\n")`. -/
def formatOptionsHelp (options : List OptionMeta) : String :=
  String.intercalate "\n" (helpLines options)

/-! ## The derived dispatch: config instances and the generated code

The derive macro `impl_clikeys` (clikeys-derive/src/lib.rs) generates, for
each struct, `apply_kv` / `options_meta` bodies that iterate the declared
fields in order. A config instance is modelled as the tree of its fields
together with the declaration-time attributes that drive the generated code:
`rename`, `help`, `ns`, `skip` (`parse_attrs`, lines 25-77). `options_meta`
in the source builds `Self::default()` and reads defaults from it; here the
modelled functions act on the instance they are given, and the derived
`options_meta()` corresponds to applying them to the default instance. -/

mutual
inductive Config where
  | mk (fields : List FieldInst)

inductive FieldInst where
  | leaf (name : String) (ren : Option String) (help : String) (skip : Bool)
      (t : LeafTy) (v : LeafVal)
  | nested (name : String) (ren : Option String) (help : String)
      (nsAttr : Option String) (skip : Bool) (c : Config)
end

/-- Local key of a field: `rename.unwrap_or_else(|| ident.to_string())`
(clikeys-derive/src/lib.rs, line 133). -/
def FieldInst.localKey : FieldInst → String
  | .leaf name ren _ _ _ _ => ren.getD name
  | .nested name ren _ _ _ _ => ren.getD name

/-- Namespace string of a nested field:
`ns.unwrap_or_else(|| field_key.clone())` (line 163); `""` for leaves. -/
def FieldInst.nsName : FieldInst → String
  | .leaf _ _ _ _ _ _ => ""
  | .nested name ren _ nsAttr _ _ => nsAttr.getD (ren.getD name)

/-- Whether the field carries the `skip` attribute. -/
def FieldInst.isSkip : FieldInst → Bool
  | .leaf _ _ _ sk _ _ => sk
  | .nested _ _ _ _ sk _ => sk

/-- Whether the field is a leaf (its type satisfies `is_leaf_type`). -/
def FieldInst.isLeaf : FieldInst → Bool
  | .leaf _ _ _ _ _ _ => true
  | .nested _ _ _ _ _ _ => false

/-- Field list of a config instance. -/
def Config.fields : Config → List FieldInst
  | .mk fs => fs

/-- Whether the generated `apply_kv` arm for this field fires on `key`:
a non-skipped leaf fires on `key == local_key` (line 142); a non-skipped
nested field fires when the key splits at its first `.` into
`(seg, rest)` with `seg == ns` (lines 167-168). -/
def FieldInst.hits (f : FieldInst) (key : String) : Bool :=
  match f with
  | .leaf name ren _ sk _ _ => !sk && key = ren.getD name
  | .nested name ren _ nsAttr sk _ =>
    !sk &&
      match splitOnce key '.' with
      | some p => p.1 = nsAttr.getD (ren.getD name)
      | none => false

mutual
/-- Models the generated `apply_kv` (clikeys-derive/src/lib.rs, lines
197-201): run the per-field arms in declaration order over the field list.
The `&mut self` mutation is modelled by returning the updated instance next
to the `Result`. -/
def applyKv : Config → String → String → Except NsError Unit × Config
  | .mk fs, key, value =>
    match applyFields fs key value with
    | (r, fs2) => (r, .mk fs2)

/-- Models the sequence of generated `apply_stmts` arms (lines 141-152 for
leaves, 166-172 for nested fields, 184-186 for the `UnknownKey`
fall-through). Skipped fields generate no arm (`continue`, lines 129-131). -/
def applyFields : List FieldInst → String → String → Except NsError Unit × List FieldInst
  | [], key, _ => (.error (.unknownKey key), [])
  | .leaf name ren help sk t v :: fs, key, value =>
    if sk then
      match applyFields fs key value with
      | (r, fs2) => (r, .leaf name ren help sk t v :: fs2)
    else if key = ren.getD name then
      match parseLeaf t value with
      | .error msg => (.error (.parseError key value msg), .leaf name ren help sk t v :: fs)
      | .ok v2 => (.ok (), .leaf name ren help sk t v2 :: fs)
    else
      match applyFields fs key value with
      | (r, fs2) => (r, .leaf name ren help sk t v :: fs2)
  | .nested name ren help nsAttr sk c :: fs, key, value =>
    if sk then
      match applyFields fs key value with
      | (r, fs2) => (r, .nested name ren help nsAttr sk c :: fs2)
    else
      match splitOnce key '.' with
      | some (seg, rest) =>
        if seg = nsAttr.getD (ren.getD name) then
          match applyKv c rest value with
          | (r, c2) => (r, .nested name ren help nsAttr sk c2 :: fs)
        else
          match applyFields fs key value with
          | (r, fs2) => (r, .nested name ren help nsAttr sk c :: fs2)
      | none =>
        match applyFields fs key value with
        | (r, fs2) => (r, .nested name ren help nsAttr sk c :: fs2)
end

mutual
/-- Models the generated `options_meta` (lines 190-195) applied to the
default instance: emit the per-field `meta_stmts` in declaration order. -/
def optionsMeta : Config → List OptionMeta
  | .mk fs => metaFields fs

/-- Models the generated `meta_stmts` (lines 154-161 for leaves, 174-180 for
nested fields); skipped fields emit nothing (lines 129-131). -/
def metaFields : List FieldInst → List OptionMeta
  | [] => []
  | .leaf name ren help sk t v :: fs =>
    if sk then metaFields fs
    else
      { key := ren.getD name, ty := leafTyName t, help := help,
        default := leafToString v } :: metaFields fs
  | .nested name ren _help nsAttr sk c :: fs =>
    if sk then metaFields fs
    else prefixMeta (nsAttr.getD (ren.getD name)) (optionsMeta c) ++ metaFields fs
end

/-- Models the loop of the generated `new_with_options` (clikeys-derive/
src/lib.rs, lines 204-224): starting from `cfg`, split each option string on
the first `=` (failing with the `expected KEY=VALUE` parse error when there
is none) and apply it, stopping at the first failure. -/
def applyOptions : Config → List String → Except NsError Config
  | cfg, [] => .ok cfg
  | cfg, opt :: rest =>
    match splitOnce opt '=' with
    | none => .error (.parseError opt "" "expected KEY=VALUE")
    | some (key, value) =>
      match applyKv cfg key value with
      | (.error e, _) => .error e
      | (.ok (), cfg2) => applyOptions cfg2 rest

/-- Models `new_with_options` itself, with the `Default` instance supplied
explicitly. -/
def newWithOptions (defaultCfg : Config) (options : List String) : Except NsError Config :=
  applyOptions defaultCfg options

mutual
/-- Flattens a config into its leaf fields, as `(fully-qualified path,
value)` pairs in declaration order (skipped fields included: they are part
of the struct even though the generated code ignores them). -/
def flattenLeaves : Config → List (String × LeafVal)
  | .mk fs => flattenFields fs

/-- Field-list version of `flattenLeaves`. -/
def flattenFields : List FieldInst → List (String × LeafVal)
  | [] => []
  | .leaf name ren _ _ _ v :: fs => (ren.getD name, v) :: flattenFields fs
  | .nested name ren _ nsAttr _ c :: fs =>
    (flattenLeaves c).map
      (fun p => ((nsAttr.getD (ren.getD name)) ++ "." ++ p.1, p.2)) ++ flattenFields fs
end

/-! ## The running example config of spec §8

`Config { retries: usize = 3, backend: Backend { d_model: u32 = 64 } }`. -/

/-- Default instance of the example nested struct `Backend`. -/
def exampleBackend : Config :=
  .mk [.leaf "d_model" none "" false .u32 (.vU32 64)]

/-- Default instance of the example root struct. -/
def exampleConfig : Config :=
  .mk [.leaf "retries" none "" false .usize (.vUsize 3),
       .nested "backend" none "" none false exampleBackend]

/-! ## Round-trip facts for the leaf registry -/

theorem digitsVal_ge : ∀ (L : List Char) (a : Nat), a ≤ digitsVal L a
  | [], _ => Nat.le_refl _
  | c :: cs, a =>
    Nat.le_trans (by omega) (digitsVal_ge cs (a * 10 + (digitVal c).getD 0))

theorem parseDigitsLoop_ok (bound : Nat) (msg : String) :
    ∀ (L : List Char) (a : Nat), (∀ c ∈ L, (digitVal c).isSome = true) →
      digitsVal L a ≤ bound →
      parseDigitsLoop bound msg L a = .ok (digitsVal L a) := by
  intro L
  induction L with
  | nil => intro a _ _; rfl
  | cons c cs ih =>
    intro a hall hle
    obtain ⟨d, hd⟩ := Option.isSome_iff_exists.mp (hall c (List.mem_cons_self c cs))
    have hdv : digitsVal (c :: cs) a = digitsVal cs (a * 10 + d) := by
      simp [digitsVal, hd]
    have hge : a * 10 + d ≤ digitsVal cs (a * 10 + d) := digitsVal_ge cs _
    have hbound : ¬ bound < a * 10 + d := by rw [hdv] at hle; omega
    simp only [parseDigitsLoop, hd, if_neg hbound]
    rw [hdv]
    exact ih (a * 10 + d) (fun x hx => hall x (List.mem_cons_of_mem c hx)) (hdv ▸ hle)

theorem digitVal_digitChar {d : Nat} (h : d < 10) : digitVal (digitChar d) = some d := by
  interval_cases d <;> decide

theorem natDigitsAux_digitsVal (n : Nat) : ∀ (acc : List Char) (a : Nat),
    digitsVal (natDigitsAux n acc) a = digitsVal acc (a * decimalWeight n + n) := by
  induction n using Nat.strong_induction_on with
  | _ n ih =>
    intro acc a
    by_cases h : n < 10
    · rw [natDigitsAux, dif_pos h, decimalWeight, if_pos h]
      simp [digitsVal, digitVal_digitChar h]
    · rw [natDigitsAux, dif_neg h, decimalWeight, if_neg h]
      rw [ih (n / 10) (Nat.div_lt_self (by omega) (by omega))]
      have hm : n % 10 < 10 := Nat.mod_lt n (by omega)
      simp only [digitsVal, digitVal_digitChar hm, Option.getD_some]
      congr 1
      have hdm : 10 * (n / 10) + n % 10 = n := Nat.div_add_mod n 10
      have : (a * decimalWeight (n / 10) + n / 10) * 10 + n % 10 =
          a * (10 * decimalWeight (n / 10)) + (10 * (n / 10) + n % 10) := by ring
      rw [this, hdm]

theorem natDigitsAux_all_digits (n : Nat) : ∀ (acc : List Char),
    (∀ c ∈ acc, (digitVal c).isSome = true) →
    ∀ c ∈ natDigitsAux n acc, (digitVal c).isSome = true := by
  induction n using Nat.strong_induction_on with
  | _ n ih =>
    intro acc hacc c hc
    by_cases h : n < 10
    · rw [natDigitsAux, dif_pos h] at hc
      rcases List.mem_cons.mp hc with h1 | h2
      · subst h1; rw [digitVal_digitChar h]; rfl
      · exact hacc c h2
    · rw [natDigitsAux, dif_neg h] at hc
      refine ih (n / 10) (Nat.div_lt_self (by omega) (by omega)) _ ?_ c hc
      intro x hx
      rcases List.mem_cons.mp hx with h1 | h2
      · subst h1; rw [digitVal_digitChar (Nat.mod_lt n (by omega))]; rfl
      · exact hacc x h2

theorem natDigitsAux_head (n : Nat) : ∀ (acc : List Char),
    ∃ d rest, natDigitsAux n acc = digitChar d :: rest ∧ d < 10 := by
  induction n using Nat.strong_induction_on with
  | _ n ih =>
    intro acc
    by_cases h : n < 10
    · exact ⟨n, acc, by rw [natDigitsAux, dif_pos h], h⟩
    · obtain ⟨d, rest, heq, hd⟩ :=
        ih (n / 10) (Nat.div_lt_self (by omega) (by omega)) (digitChar (n % 10) :: acc)
      exact ⟨d, rest, by rw [natDigitsAux, dif_neg h, heq], hd⟩

theorem digitChar_ne_plus {d : Nat} (h : d < 10) : digitChar d ≠ '+' := by
  intro heq
  have := digitVal_digitChar h
  rw [heq] at this
  exact Option.noConfusion ((show digitVal '+' = none from rfl) ▸ this)

theorem digitChar_ne_minus {d : Nat} (h : d < 10) : digitChar d ≠ '-' := by
  intro heq
  have := digitVal_digitChar h
  rw [heq] at this
  exact Option.noConfusion ((show digitVal '-' = none from rfl) ▸ this)

theorem parseUnsigned_cons (bound : Nat) (c : Char) (cs : List Char) :
    parseUnsigned bound ⟨c :: cs⟩ =
      if c = '+' ∨ c = '-' then
        if cs = [] then .error "invalid digit found in string"
        else if c = '+' then
          parseDigitsLoop bound "number too large to fit in target type" cs 0
        else
          parseDigitsLoop bound "number too large to fit in target type" (c :: cs) 0
      else
        parseDigitsLoop bound "number too large to fit in target type" (c :: cs) 0 := rfl

theorem digitsVal_natDigitsAux_nil (n : Nat) : digitsVal (natDigitsAux n []) 0 = n := by
  rw [natDigitsAux_digitsVal]
  simp [digitsVal]

/-- Round trip for the unsigned parsers: parsing the rendered decimal form
of an in-range value yields the value back. -/
theorem parseUnsigned_natToString {bound n : Nat} (h : n ≤ bound) :
    parseUnsigned bound (natToString n) = .ok n := by
  obtain ⟨d, rest, heq, hd⟩ := natDigitsAux_head n []
  have hmk : natToString n = ⟨digitChar d :: rest⟩ := congrArg String.mk heq
  rw [natToString] at hmk ⊢
  rw [hmk, parseUnsigned_cons,
    if_neg (by push_neg; exact ⟨digitChar_ne_plus hd, digitChar_ne_minus hd⟩), ← heq,
    parseDigitsLoop_ok _ _ _ _ (natDigitsAux_all_digits n [] (by simp))
      (by rw [digitsVal_natDigitsAux_nil]; exact h),
    digitsVal_natDigitsAux_nil]

theorem parseSigned_cons (minAbs bound : Nat) (c : Char) (cs : List Char) :
    parseSigned minAbs bound ⟨c :: cs⟩ =
      if c = '+' ∨ c = '-' then
        if cs = [] then .error "invalid digit found in string"
        else if c = '+' then
          (parseDigitsLoop bound "number too large to fit in target type" cs 0).map
            Int.ofNat
        else
          (parseDigitsLoop minAbs "number too small to fit in target type" cs 0).map
            (fun n => -(n : Int))
      else
        (parseDigitsLoop bound "number too large to fit in target type" (c :: cs) 0).map
          Int.ofNat := rfl

theorem natDigitsAux_ne_nil (n : Nat) (acc : List Char) : natDigitsAux n acc ≠ [] := by
  obtain ⟨d, rest, heq, _⟩ := natDigitsAux_head n acc
  simp [heq]

/-- Round trip for the signed parsers. -/
theorem parseSigned_intToString {minAbs bound : Nat} {i : Int}
    (hlo : -(minAbs : Int) ≤ i) (hhi : i ≤ (bound : Int)) :
    parseSigned minAbs bound (intToString i) = .ok i := by
  by_cases hneg : i < 0
  · rw [intToString, if_pos hneg]
    obtain ⟨d, rest, heq, hd⟩ := natDigitsAux_head i.natAbs []
    have hdata : ("-" ++ natToString i.natAbs).data = '-' :: natDigitsAux i.natAbs [] := rfl
    have hmk : "-" ++ natToString i.natAbs = ⟨'-' :: natDigitsAux i.natAbs []⟩ := by
      cases hs : ("-" ++ natToString i.natAbs) with
      | mk l => rw [← hdata, hs]
    rw [hmk, parseSigned_cons, if_pos (Or.inr rfl),
      if_neg (natDigitsAux_ne_nil i.natAbs []), if_neg (by decide),
      parseDigitsLoop_ok _ _ _ _ (natDigitsAux_all_digits i.natAbs [] (by simp))
        (by rw [digitsVal_natDigitsAux_nil]; omega),
      digitsVal_natDigitsAux_nil]
    show Except.ok (-(i.natAbs : Int)) = Except.ok i
    rw [show -(i.natAbs : Int) = i by omega]
  · rw [intToString, if_neg hneg]
    obtain ⟨d, rest, heq, hd⟩ := natDigitsAux_head i.natAbs []
    have hmk : natToString i.natAbs = ⟨digitChar d :: rest⟩ := congrArg String.mk heq
    rw [natToString] at hmk ⊢
    rw [hmk, parseSigned_cons,
      if_neg (by push_neg; exact ⟨digitChar_ne_plus hd, digitChar_ne_minus hd⟩), ← heq,
      parseDigitsLoop_ok _ _ _ _ (natDigitsAux_all_digits i.natAbs [] (by simp))
        (by rw [digitsVal_natDigitsAux_nil]; omega),
      digitsVal_natDigitsAux_nil]
    show Except.ok (Int.ofNat i.natAbs) = Except.ok i
    rw [show Int.ofNat i.natAbs = i from Int.natAbs_of_nonneg (by omega)]

/-- Round trip of the leaf registry over the embedded leaf types: for every
in-range value, parsing its canonical string form yields it back (spec §8
round-trip property, restricted to the non-floating-point leaf types). -/
theorem parseLeaf_leafToString {t : LeafTy} {v : LeafVal} (h : LeafWF t v) :
    parseLeaf t (leafToString v) = .ok v := by
  cases t <;> cases v <;> simp only [LeafWF] at h <;> try exact absurd h not_false
  case bool.vBool b =>
    cases b <;> rfl
  case usize.vUsize n =>
    simp only [parseLeaf, leafToString,
      parseUnsigned_natToString (show n ≤ 2 ^ 64 - 1 by omega), Except.map]
  case u32.vU32 n =>
    simp only [parseLeaf, leafToString,
      parseUnsigned_natToString (show n ≤ 2 ^ 32 - 1 by omega), Except.map]
  case u64.vU64 n =>
    simp only [parseLeaf, leafToString,
      parseUnsigned_natToString (show n ≤ 2 ^ 64 - 1 by omega), Except.map]
  case i32.vI32 i =>
    have := @parseSigned_intToString (2 ^ 31) (2 ^ 31 - 1) i
      (by push_cast; omega) (by push_cast; omega)
    simp only [parseLeaf, leafToString, this, Except.map]
  case i64.vI64 i =>
    have := @parseSigned_intToString (2 ^ 63) (2 ^ 63 - 1) i
      (by push_cast; omega) (by push_cast; omega)
    simp only [parseLeaf, leafToString, this, Except.map]
  case str.vStr s => rfl

/-! ## Structural lemmas about the generated dispatch -/

theorem applyKv_mk (fs : List FieldInst) (key value : String) :
    applyKv (.mk fs) key value =
      ((applyFields fs key value).1, .mk (applyFields fs key value).2) := rfl

/-- A field whose generated arm does not fire is passed over unchanged: the
dispatch continues with the remaining fields. -/
theorem applyFields_cons_miss (f : FieldInst) (fs : List FieldInst) (key value : String)
    (h : f.hits key = false) :
    applyFields (f :: fs) key value =
      ((applyFields fs key value).1, f :: (applyFields fs key value).2) := by
  cases f with
  | leaf name ren help sk t v =>
    cases sk with
    | true => rfl
    | false =>
      have hne : ¬ key = ren.getD name := by
        simpa [FieldInst.hits] using h
      simp only [applyFields, Bool.false_eq_true, if_false, if_neg hne]
  | nested name ren help nsAttr sk c =>
    cases sk with
    | true => rfl
    | false =>
      simp only [FieldInst.hits, Bool.not_false, Bool.true_and] at h
      simp only [applyFields, Bool.false_eq_true, if_false]
      cases hS : splitOnce key '.' with
      | none => rfl
      | some p =>
        rw [hS] at h
        simp only [decide_eq_false_iff_not] at h
        simp only [if_neg h]

/-- Fall-through over a block of fields none of whose arms fire. -/
theorem applyFields_append_miss (fs1 fs2 : List FieldInst) (key value : String)
    (h : ∀ f ∈ fs1, f.hits key = false) :
    applyFields (fs1 ++ fs2) key value =
      ((applyFields fs2 key value).1, fs1 ++ (applyFields fs2 key value).2) := by
  induction fs1 with
  | nil => rfl
  | cons f fs1 ih =>
    rw [List.cons_append,
      applyFields_cons_miss f (fs1 ++ fs2) key value (h f (List.mem_cons_self f fs1)),
      ih (fun g hg => h g (List.mem_cons_of_mem f hg))]
    rw [List.cons_append]

/-- Dispatch step: a non-skipped leaf whose local key matches but whose
parser rejects the value returns the parse error and changes nothing. -/
theorem applyFields_cons_leaf_parseError (name : String) (ren : Option String)
    (help : String) (t : LeafTy) (v : LeafVal) (fs : List FieldInst)
    (key value msg : String) (hk : key = ren.getD name)
    (hP : parseLeaf t value = .error msg) :
    applyFields (.leaf name ren help false t v :: fs) key value =
      (.error (.parseError key value msg), .leaf name ren help false t v :: fs) := by
  simp only [applyFields, Bool.false_eq_true, if_false, if_pos hk, hP]

/-- Dispatch step: a non-skipped leaf whose local key matches and whose
parser accepts assigns the parsed value and succeeds. -/
theorem applyFields_cons_leaf_ok (name : String) (ren : Option String)
    (help : String) (t : LeafTy) (v v2 : LeafVal) (fs : List FieldInst)
    (key value : String) (hk : key = ren.getD name)
    (hP : parseLeaf t value = .ok v2) :
    applyFields (.leaf name ren help false t v :: fs) key value =
      (.ok (), .leaf name ren help false t v2 :: fs) := by
  simp only [applyFields, Bool.false_eq_true, if_false, if_pos hk, hP]

/-- Dispatch step: a non-skipped nested field whose namespace matches the
segment before the key's first dot delegates the remainder to the child and
returns the child's result unchanged. -/
theorem applyFields_cons_nested_hit (name : String) (ren : Option String)
    (help : String) (nsAttr : Option String) (c : Config) (fs : List FieldInst)
    (key value seg rest : String) (hS : splitOnce key '.' = some (seg, rest))
    (hseg : seg = nsAttr.getD (ren.getD name)) :
    applyFields (.nested name ren help nsAttr false c :: fs) key value =
      ((applyKv c rest value).1,
        .nested name ren help nsAttr false (applyKv c rest value).2 :: fs) := by
  simp only [applyFields, Bool.false_eq_true, if_false, hS, if_pos hseg]

mutual
/-- Mutation model of `&mut self` in `apply_kv`: whenever the generated code
returns an error (either kind), it has not assigned any field, so the config
instance is left exactly as it was. -/
theorem applyKv_error_state :
    ∀ (c : Config) (key value : String) (e : NsError),
      (applyKv c key value).1 = .error e → (applyKv c key value).2 = c
  | .mk fs, key, value, e, h => by
    rw [applyKv_mk] at h ⊢
    exact congrArg Config.mk (applyFields_error_state fs key value e h)

/-- Field-list version of `applyKv_error_state`. -/
theorem applyFields_error_state :
    ∀ (fs : List FieldInst) (key value : String) (e : NsError),
      (applyFields fs key value).1 = .error e → (applyFields fs key value).2 = fs
  | [], _, _, _, _ => rfl
  | .leaf name ren help sk t v :: fs, key, value, e, h => by
    by_cases hhit : (FieldInst.leaf name ren help sk t v).hits key = true
    · have hsk : sk = false := by
        cases sk
        · rfl
        · simp [FieldInst.hits] at hhit
      have hk : key = ren.getD name := by
        rw [hsk] at hhit
        simpa [FieldInst.hits] using hhit
      subst hsk
      cases hP : parseLeaf t value with
      | error msg =>
        rw [applyFields_cons_leaf_parseError name ren help t v fs key value msg hk hP]
      | ok v2 =>
        rw [applyFields_cons_leaf_ok name ren help t v v2 fs key value hk hP] at h
        exact absurd h (by simp)
    · have hmiss := Bool.eq_false_iff.mpr (fun hx => hhit hx)
      rw [applyFields_cons_miss _ fs key value hmiss] at h ⊢
      exact congrArg _ (applyFields_error_state fs key value e h)
  | .nested name ren help nsAttr sk c :: fs, key, value, e, h => by
    by_cases hhit : (FieldInst.nested name ren help nsAttr sk c).hits key = true
    · have hsk : sk = false := by
        cases sk
        · rfl
        · simp [FieldInst.hits] at hhit
      subst hsk
      simp only [FieldInst.hits, Bool.not_false, Bool.true_and] at hhit
      cases hS : splitOnce key '.' with
      | none => rw [hS] at hhit; exact absurd hhit (by simp)
      | some p =>
        rw [hS] at hhit
        simp only [decide_eq_true_eq] at hhit
        rw [applyFields_cons_nested_hit name ren help nsAttr c fs key value p.1 p.2
          (by rw [hS]) hhit] at h ⊢
        exact congrArg (fun x => FieldInst.nested name ren help nsAttr false x :: fs)
          (applyKv_error_state c p.2 value e h)
    · have hmiss := Bool.eq_false_iff.mpr (fun hx => hhit hx)
      rw [applyFields_cons_miss _ fs key value hmiss] at h ⊢
      exact congrArg _ (applyFields_error_state fs key value e h)
end

/-! ## Correctness of the modelled stable sort and the help ordering -/

theorem insertLe_perm (le : α → α → Bool) (a : α) :
    ∀ l : List α, List.Perm (insertLe le a l) (a :: l)
  | [] => List.Perm.refl _
  | b :: l => by
    rw [insertLe]
    by_cases h : le a b = true
    · rw [if_pos h]
    · rw [if_neg h]
      exact ((insertLe_perm le a l).cons b).trans (List.Perm.swap a b l)

theorem sortLe_perm (le : α → α → Bool) : ∀ l : List α, List.Perm (sortLe le l) l
  | [] => List.Perm.refl _
  | a :: l => (insertLe_perm le a (sortLe le l)).trans ((sortLe_perm le l).cons a)

theorem mem_insertLe (le : α → α → Bool) (a x : α) (l : List α) :
    x ∈ insertLe le a l ↔ x = a ∨ x ∈ l :=
  (insertLe_perm le a l).mem_iff.trans List.mem_cons

theorem insertLe_sorted (le : α → α → Bool)
    (htot : ∀ a b, le a b = false → le b a = true)
    (htrans : ∀ a b c, le a b = true → le b c = true → le a c = true)
    (a : α) : ∀ l : List α, l.Pairwise (fun x y => le x y = true) →
      (insertLe le a l).Pairwise (fun x y => le x y = true)
  | [], _ => by simp [insertLe]
  | b :: l, h => by
    rw [insertLe]
    rcases List.pairwise_cons.mp h with ⟨hb, hl⟩
    by_cases hab : le a b = true
    · rw [if_pos hab]
      refine List.pairwise_cons.mpr ⟨?_, h⟩
      intro x hx
      rcases List.mem_cons.mp hx with rfl | hx
      · exact hab
      · exact htrans a b x hab (hb x hx)
    · rw [if_neg hab]
      refine List.pairwise_cons.mpr ⟨?_, insertLe_sorted le htot htrans a l hl⟩
      intro x hx
      rcases (mem_insertLe le a x l).mp hx with rfl | hx
      · exact htot x b (by simpa using hab)
      · exact hb x hx

theorem sortLe_sorted (le : α → α → Bool)
    (htot : ∀ a b, le a b = false → le b a = true)
    (htrans : ∀ a b c, le a b = true → le b c = true → le a c = true) :
    ∀ l : List α, (sortLe le l).Pairwise (fun x y => le x y = true)
  | [] => List.Pairwise.nil
  | a :: l => insertLe_sorted le htot htrans a _ (sortLe_sorted le htot htrans l)

theorem lexLe_total : ∀ as bs : List Char, lexLe as bs = false → lexLe bs as = true
  | [], _, h => by simp [lexLe] at h
  | _ :: _, [], _ => rfl
  | a :: as, b :: bs, h => by
    rw [lexLe] at h ⊢
    by_cases h1 : a < b
    · rw [if_pos h1] at h
      exact absurd h (by simp)
    · rw [if_neg h1] at h
      by_cases h2 : b < a
      · rw [if_pos h2] at h
        rw [if_neg (lt_asymm h2), if_pos h2]
      · rw [if_neg h2] at h
        rw [if_neg h2, if_neg h1]
        exact lexLe_total as bs h

theorem lexLe_trans :
    ∀ as bs cs : List Char, lexLe as bs = true → lexLe bs cs = true → lexLe as cs = true
  | [], _, _, _, _ => rfl
  | _ :: _, [], _, h1, _ => by simp [lexLe] at h1
  | _ :: _, _ :: _, [], _, h2 => by simp [lexLe] at h2
  | a :: as, b :: bs, c :: cs, h1, h2 => by
    rw [lexLe] at h1 h2 ⊢
    by_cases hab : a < b
    · rw [if_pos hab] at h1
      by_cases hbc : b < c
      · rw [if_pos (lt_trans hab hbc)]
      · rw [if_neg hbc] at h2
        by_cases hcb : c < b
        · rw [if_pos hcb] at h2
          exact absurd h2 (by simp)
        · have hbc2 : b = c := le_antisymm (le_of_not_lt hcb) (le_of_not_lt hbc)
          rw [if_pos (hbc2 ▸ hab)]
    · rw [if_neg hab] at h1
      by_cases hba : b < a
      · rw [if_pos hba] at h1
        exact absurd h1 (by simp)
      · rw [if_neg hba] at h1
        have hab2 : a = b := le_antisymm (le_of_not_lt hba) (le_of_not_lt hab)
        subst hab2
        by_cases hac : a < c
        · rw [if_pos hac]
        · rw [if_neg hac] at h2 ⊢
          by_cases hca : c < a
          · rw [if_pos hca] at h2
            exact absurd h2 (by simp)
          · rw [if_neg hca] at h2 ⊢
            exact lexLe_trans as bs cs h1 h2

theorem strLe_total (a b : String) (h : strLe a b = false) : strLe b a = true :=
  lexLe_total a.data b.data h

theorem strLe_trans (a b c : String) (h1 : strLe a b = true) (h2 : strLe b c = true) :
    strLe a c = true :=
  lexLe_trans a.data b.data c.data h1 h2

/-- C6: the rendered help listing is deterministic for a given flat metadata
sequence: the top-level groups (first dot-separated segment of each key)
appear in strictly ascending lexicographic order, and the entries inside
each group in ascending lexicographic order of full key; concretely, an
input carrying a `zeta` group before an `alpha` group is rendered with the
`alpha.*` group and its entry first. -/
theorem help_ordering :
    (∀ opts : List OptionMeta,
      (helpGroups opts).Pairwise (fun a b => strLe a b = true ∧ a ≠ b) ∧
      ∀ g, ((groupItems opts g).map (fun m => m.key)).Pairwise
        (fun a b => strLe a b = true)) ∧
    helpLines [⟨"zeta.x", "u32", "", "1"⟩, ⟨"alpha.y", "u32", "h", "2"⟩] =
      ["Options (set with -o/--option KEY=VALUE; repeatable):", "\nalpha.*",
        "  alpha.y                       default = 2           (u32) h", "\nzeta.*",
        "  zeta.x                        default = 1           (u32) "] := by
  refine ⟨fun opts => ⟨?_, fun g => ?_⟩, rfl⟩
  · exact (sortLe_sorted strLe strLe_total strLe_trans _).and
      (((sortLe_perm strLe _).nodup_iff).mpr (List.nodup_dedup _))
  · rw [List.pairwise_map]
    exact sortLe_sorted (fun a b : OptionMeta => strLe a.key b.key)
      (fun a b h => strLe_total a.key b.key h)
      (fun a b c h1 h2 => strLe_trans a.key b.key c.key h1 h2) _

/-- C3 counterexample: for an entry with empty help, the rendered line does
not end after the parenthesized type name; the `" {}"` tail of the format
string leaves a trailing space, so the rendering of a single empty-help
entry ends in the blank shown below (its last character is a space). -/
theorem help_empty_help_counterexample :
    formatOptionsHelp [⟨"k", "u32", "", "3"⟩] =
      "Options (set with -o/--option KEY=VALUE; repeatable):\n\nk.*\n  k                             default = 3           (u32) " ∧
    (formatOptionsHelp [⟨"k", "u32", "", "3"⟩]).data.getLast? = some ' ' :=
  ⟨rfl, rfl⟩

/-- C3 amended: every rendered entry line consists of the key left-justified
to 28 characters, the literal `default =`, the default left-justified to 10
characters, and the type name in parentheses, followed by a space and the
help text; the space before the help is emitted even when the help is empty,
so an empty-help line ends in a trailing space instead of after the type. -/
theorem entry_line_format (opts : List OptionMeta) (m : OptionMeta) (h : m ∈ opts) :
    ("  " ++ padRight m.key 28 ++ "  default = " ++ padRight m.default 10 ++
      "  (" ++ m.ty ++ ") " ++ m.help) ∈ helpLines opts := by
  show entryLine m ∈ helpLines opts
  have hg : firstSegment m.key ∈ helpGroups opts := by
    rw [helpGroups, (sortLe_perm strLe _).mem_iff, List.mem_dedup]
    exact List.mem_map_of_mem _ h
  have hi : m ∈ groupItems opts (firstSegment m.key) := by
    rw [groupItems, (sortLe_perm _ _).mem_iff, List.mem_filter]
    exact ⟨h, by simp⟩
  rw [helpLines]
  refine List.mem_cons_of_mem _ ?_
  rw [List.mem_flatMap]
  exact ⟨firstSegment m.key, hg, List.mem_cons_of_mem _ (List.mem_map_of_mem _ hi)⟩

/-- Witness for `entry_line_format` at a concrete single-entry table. -/
theorem entry_line_format_witness :
    ("  " ++ padRight "k" 28 ++ "  default = " ++ padRight "3" 10 ++
      "  (" ++ "u32" ++ ") " ++ "") ∈ helpLines [⟨"k", "u32", "", "3"⟩] :=
  entry_line_format [⟨"k", "u32", "", "3"⟩] ⟨"k", "u32", "", "3"⟩ (by simp)

/-! ## Claims about the dispatch -/

/-- C4: when dispatch reaches a leaf field whose local key equals the key
(all earlier arms having missed) and the leaf parser rejects the value,
`apply_kv` returns `ParseError` carrying exactly that key, that value, and
the parser's message, and the config instance is left completely unchanged. -/
theorem apply_kv_parse_error (fs1 fs2 : List FieldInst) (name : String)
    (ren : Option String) (help : String) (t : LeafTy) (v : LeafVal)
    (key value msg : String)
    (hmiss : ∀ f ∈ fs1, f.hits key = false)
    (hk : key = ren.getD name)
    (hP : parseLeaf t value = .error msg) :
    applyKv (.mk (fs1 ++ .leaf name ren help false t v :: fs2)) key value =
      (.error (.parseError key value msg),
        .mk (fs1 ++ .leaf name ren help false t v :: fs2)) := by
  rw [applyKv_mk, applyFields_append_miss fs1 _ key value hmiss,
    applyFields_cons_leaf_parseError name ren help t v fs2 key value msg hk hP]

/-- Witness for `apply_kv_parse_error`: a failing bool override leaves the
two-field example unchanged and reports key, value, and parser message. -/
theorem apply_kv_parse_error_witness :
    applyKv (.mk [.leaf "retries" none "" false .usize (.vUsize 3),
        .leaf "flag" none "" false .bool (.vBool false)]) "flag" "yes" =
      (.error (.parseError "flag" "yes" "provided string was not `true` or `false`"),
        .mk [.leaf "retries" none "" false .usize (.vUsize 3),
          .leaf "flag" none "" false .bool (.vBool false)]) :=
  apply_kv_parse_error [.leaf "retries" none "" false .usize (.vUsize 3)] []
    "flag" none "" .bool (.vBool false) "flag" "yes"
    "provided string was not `true` or `false`" (by decide) rfl rfl

/-- Loop step: a well-formed `KEY=VALUE` option whose application succeeds
continues the loop on the updated config. -/
theorem applyOptions_cons_ok (cfg cfg3 : Config) (opt : String) (rest : List String)
    (k v : String) (hS : splitOnce opt '=' = some (k, v))
    (hA : applyKv cfg k v = (.ok (), cfg3)) :
    applyOptions cfg (opt :: rest) = applyOptions cfg3 rest := by
  rw [applyOptions, hS]
  show (match applyKv cfg k v with
    | (.error e, _) => (.error e : Except NsError Config)
    | (.ok (), cfg4) => applyOptions cfg4 rest) = applyOptions cfg3 rest
  rw [hA]

/-- Loop step: a well-formed `KEY=VALUE` option whose application fails
stops the loop with that error. -/
theorem applyOptions_cons_error (cfg cfg3 : Config) (opt : String)
    (rest : List String) (k v : String) (e : NsError)
    (hS : splitOnce opt '=' = some (k, v))
    (hA : applyKv cfg k v = (.error e, cfg3)) :
    applyOptions cfg (opt :: rest) = .error e := by
  rw [applyOptions, hS]
  show (match applyKv cfg k v with
    | (.error e2, _) => (.error e2 : Except NsError Config)
    | (.ok (), cfg4) => applyOptions cfg4 rest) = .error e
  rw [hA]

/-- Composition of the option loop: once a prefix of the option list has
been applied successfully, the loop continues from the updated config. -/
theorem applyOptions_append (cfg cfg2 : Config) (xs ys : List String)
    (h : applyOptions cfg xs = .ok cfg2) :
    applyOptions cfg (xs ++ ys) = applyOptions cfg2 ys := by
  induction xs generalizing cfg with
  | nil =>
    cases h
    rfl
  | cons opt xs ih =>
    rw [List.cons_append]
    cases hS : splitOnce opt '=' with
    | none =>
      rw [applyOptions, hS] at h
      exact absurd h (by simp)
    | some p =>
      have hp : splitOnce opt '=' = some (p.1, p.2) := by rw [hS]
      rcases hA : applyKv cfg p.1 p.2 with ⟨r, cfg3⟩
      cases r with
      | error e =>
        rw [applyOptions_cons_error cfg cfg3 opt xs p.1 p.2 e hp hA] at h
        exact absurd h (by simp)
      | ok u =>
        cases u
        rw [applyOptions_cons_ok cfg cfg3 opt xs p.1 p.2 hp hA] at h
        rw [applyOptions_cons_ok cfg cfg3 opt (xs ++ ys) p.1 p.2 hp hA]
        exact ih cfg3 h

/-- C5: an option string containing no `=` makes `new_with_options` fail
immediately at that string — whatever options follow — with a `ParseError`
whose key is the whole offending string, whose value is empty, and whose
message is `expected KEY=VALUE`; the options after it are never applied. -/
theorem new_with_options_malformed (cfg cfg2 : Config) (pre : List String)
    (bad : String) (post : List String)
    (hbad : splitOnce bad '=' = none)
    (hpre : applyOptions cfg pre = .ok cfg2) :
    newWithOptions cfg (pre ++ bad :: post) =
      .error (.parseError bad "" "expected KEY=VALUE") := by
  rw [newWithOptions, applyOptions_append cfg cfg2 pre (bad :: post) hpre,
    applyOptions, hbad]

/-- Witness for `new_with_options_malformed`: `["retries=5", "retries",
"backend.d_model=128"]` fails at the bare `"retries"` even though a valid
option follows, after the first option was applied. -/
theorem new_with_options_malformed_witness :
    newWithOptions exampleConfig ["retries=5", "retries", "backend.d_model=128"] =
      .error (.parseError "retries" "" "expected KEY=VALUE") :=
  new_with_options_malformed exampleConfig
    (.mk [.leaf "retries" none "" false .usize (.vUsize 5),
      .nested "backend" none "" none false exampleBackend])
    ["retries=5"] "retries" ["backend.d_model=128"] rfl rfl

/-- C1 counterexample: resolving `backend.bogus` on the spec §8 example
config stops inside the `backend` namespace, and the resulting `UnknownKey`
carries only the local remainder `bogus`, not the fully-qualified
`backend.bogus` received at the root. -/
theorem deep_unknown_key_counterexample :
    (applyKv exampleConfig "backend.bogus" "1").1 = .error (.unknownKey "bogus") ∧
      (applyKv exampleConfig "backend.bogus" "1").1 ≠
        .error (.unknownKey "backend.bogus") := by
  refine ⟨rfl, fun h => ?_⟩
  have h2 : NsError.unknownKey "bogus" = NsError.unknownKey "backend.bogus" :=
    Except.error.inj h
  exact absurd (NsError.unknownKey.inj h2) (by decide)

/-- C1 amended: when a key resolves into a namespace field, the nested
call's result is propagated unchanged, so errors produced deeper carry only
the key remainder visible at the frame where resolution stopped (the
matched namespace prefixes having been stripped), not the fully-qualified
dotted path received at the root. -/
theorem nested_error_propagates_local (name : String) (ren : Option String)
    (help : String) (nsAttr : Option String) (c : Config) (fs1 fs2 : List FieldInst)
    (key value seg rest : String)
    (hmiss : ∀ f ∈ fs1, f.hits key = false)
    (hS : splitOnce key '.' = some (seg, rest))
    (hseg : seg = nsAttr.getD (ren.getD name)) :
    (applyKv (.mk (fs1 ++ .nested name ren help nsAttr false c :: fs2)) key value).1 =
      (applyKv c rest value).1 := by
  rw [applyKv_mk, applyFields_append_miss fs1 _ key value hmiss,
    applyFields_cons_nested_hit name ren help nsAttr c fs2 key value seg rest hS hseg]

/-- Witness for `nested_error_propagates_local` on the spec §8 example:
the root result for `backend.bogus` is exactly the nested result for
`bogus`. -/
theorem nested_error_propagates_local_witness :
    (applyKv exampleConfig "backend.bogus" "1").1 =
      (applyKv exampleBackend "bogus" "1").1 :=
  nested_error_propagates_local "backend" none "" none exampleBackend
    [.leaf "retries" none "" false .usize (.vUsize 3)] []
    "backend.bogus" "1" "backend" "bogus" (by decide) rfl rfl

/-! ## Skip exclusion, unreachable namespaces, empty keys -/

theorem hits_of_skip (f : FieldInst) (key : String) (h : f.isSkip = true) :
    f.hits key = false := by
  cases f with
  | leaf name ren help sk t v =>
    simp only [FieldInst.isSkip] at h
    subst h
    rfl
  | nested name ren help nsAttr sk c =>
    simp only [FieldInst.isSkip] at h
    subst h
    rfl

/-- A key matched by no arm runs the whole generated chain and lands on the
final `UnknownKey` fall-through, with no field changed. -/
theorem applyFields_all_miss (fs : List FieldInst) (key value : String)
    (h : ∀ f ∈ fs, f.hits key = false) :
    applyFields fs key value = (.error (.unknownKey key), fs) := by
  have h2 := applyFields_append_miss fs [] key value h
  rw [List.append_nil] at h2
  simpa [applyFields] using h2

/-- A field whose arm fires short-circuits the dispatch: the result and the
updated head are independent of the fields after it, which stay unchanged. -/
theorem applyFields_cons_hit (g : FieldInst) (key value : String)
    (hhit : g.hits key = true) :
    ∃ r g2, ∀ l : List FieldInst, applyFields (g :: l) key value = (r, g2 :: l) := by
  cases g with
  | leaf name ren help sk t v =>
    have hsk : sk = false := by
      cases sk
      · rfl
      · exact absurd hhit (by simp [FieldInst.hits])
    subst hsk
    have hk : key = ren.getD name := by simpa [FieldInst.hits] using hhit
    cases hP : parseLeaf t value with
    | error msg =>
      exact ⟨.error (.parseError key value msg), _,
        fun l => applyFields_cons_leaf_parseError name ren help t v l key value msg hk hP⟩
    | ok v2 =>
      exact ⟨.ok (), _,
        fun l => applyFields_cons_leaf_ok name ren help t v v2 l key value hk hP⟩
  | nested name ren help nsAttr sk c =>
    have hsk : sk = false := by
      cases sk
      · rfl
      · exact absurd hhit (by simp [FieldInst.hits])
    subst hsk
    simp only [FieldInst.hits, Bool.not_false, Bool.true_and] at hhit
    cases hS : splitOnce key '.' with
    | none =>
      rw [hS] at hhit
      exact absurd hhit (by simp)
    | some p =>
      rw [hS] at hhit
      simp only [decide_eq_true_eq] at hhit
      exact ⟨(applyKv c p.2 value).1, _,
        fun l => applyFields_cons_nested_hit name ren help nsAttr c l key value
          p.1 p.2 (by rw [hS]) hhit⟩

/-- Any field whose arm does not fire on the dispatched key is returned
unchanged, whatever the rest of the dispatch does. -/
theorem applyFields_preserves_miss :
    ∀ (fs : List FieldInst) (key value : String) (i : Nat) (f : FieldInst),
      fs[i]? = some f → f.hits key = false →
      ((applyFields fs key value).2)[i]? = some f
  | [], _, _, i, _, hget, _ => by simp at hget
  | g :: fs, key, value, i, f, hget, hmiss => by
    by_cases hhit : g.hits key = true
    · obtain ⟨r, g2, hall⟩ := applyFields_cons_hit g key value hhit
      rw [hall fs]
      cases i with
      | zero =>
        rw [List.getElem?_cons_zero] at hget
        have hgf : g = f := Option.some.inj hget
        subst hgf
        exact absurd hhit (by simp [hmiss])
      | succ i =>
        rw [List.getElem?_cons_succ] at hget ⊢
        exact hget
    · rw [applyFields_cons_miss g fs key value (by simpa using hhit)]
      cases i with
      | zero =>
        rw [List.getElem?_cons_zero] at hget ⊢
        exact hget
      | succ i =>
        rw [List.getElem?_cons_succ] at hget ⊢
        exact applyFields_preserves_miss fs key value i f hget hmiss

theorem metaFields_filter_skip : ∀ fs : List FieldInst,
    metaFields fs = metaFields (fs.filter (fun f => !f.isSkip))
  | [] => rfl
  | g :: fs => by
    by_cases hsk : g.isSkip = true
    · have hdrop : (g :: fs).filter (fun f => !f.isSkip) =
          fs.filter (fun f => !f.isSkip) :=
        List.filter_cons_of_neg (by simp [hsk])
      rw [hdrop, ← metaFields_filter_skip fs]
      cases g with
      | leaf name ren help sk t v =>
        simp only [FieldInst.isSkip] at hsk
        subst hsk
        rfl
      | nested name ren help nsAttr sk c =>
        simp only [FieldInst.isSkip] at hsk
        subst hsk
        rfl
    · have hkeep : (g :: fs).filter (fun f => !f.isSkip) =
          g :: fs.filter (fun f => !f.isSkip) :=
        List.filter_cons_of_pos (by simpa using hsk)
      rw [hkeep]
      cases g with
      | leaf name ren help sk t v =>
        have hsk2 : sk = false := by simpa [FieldInst.isSkip] using hsk
        subst hsk2
        show _ :: metaFields fs = _ :: metaFields (fs.filter (fun f => !f.isSkip))
        rw [metaFields_filter_skip fs]
      | nested name ren help nsAttr sk c =>
        have hsk2 : sk = false := by simpa [FieldInst.isSkip] using hsk
        subst hsk2
        show prefixMeta _ (optionsMeta c) ++ metaFields fs =
          prefixMeta _ (optionsMeta c) ++ metaFields (fs.filter (fun f => !f.isSkip))
        rw [metaFields_filter_skip fs]

theorem applyFields_fst_filter_skip :
    ∀ (fs : List FieldInst) (key value : String),
      (applyFields fs key value).1 =
        (applyFields (fs.filter (fun f => !f.isSkip)) key value).1
  | [], _, _ => rfl
  | g :: fs, key, value => by
    by_cases hsk : g.isSkip = true
    · rw [applyFields_cons_miss g fs key value (hits_of_skip g key hsk),
        List.filter_cons_of_neg (by simp [hsk])]
      exact applyFields_fst_filter_skip fs key value
    · rw [List.filter_cons_of_pos (by simpa using hsk)]
      by_cases hhit : g.hits key = true
      · obtain ⟨r, g2, hall⟩ := applyFields_cons_hit g key value hhit
        rw [hall fs, hall (fs.filter (fun f => !f.isSkip))]
      · rw [applyFields_cons_miss g fs key value (by simpa using hhit),
          applyFields_cons_miss g (fs.filter (fun f => !f.isSkip)) key value
            (by simpa using hhit)]
        exact applyFields_fst_filter_skip fs key value

/-- C8: a field annotated `skip` is invisible to the generated code: the
emitted metadata and the dispatch result are those of the struct with the
skipped fields removed, a skipped field is never mutated by `apply_kv`, and
a key on which no non-skipped arm fires (in particular a skipped field's
key, absent collisions) yields `UnknownKey` with the config untouched. -/
theorem skip_excluded (fs : List FieldInst) :
    optionsMeta (.mk fs) = optionsMeta (.mk (fs.filter (fun f => !f.isSkip))) ∧
    (∀ key value, (applyKv (.mk fs) key value).1 =
      (applyKv (.mk (fs.filter (fun f => !f.isSkip))) key value).1) ∧
    (∀ (key value : String) (i : Nat) (f : FieldInst), fs[i]? = some f →
      f.isSkip = true → ((applyKv (.mk fs) key value).2).fields[i]? = some f) ∧
    (∀ key value, (∀ f ∈ fs, f.isSkip = false → f.hits key = false) →
      applyKv (.mk fs) key value = (.error (.unknownKey key), .mk fs)) := by
  refine ⟨metaFields_filter_skip fs, fun key value => ?_, fun key value i f hget hsk => ?_,
    fun key value h => ?_⟩
  · rw [applyKv_mk, applyKv_mk]
    exact applyFields_fst_filter_skip fs key value
  · rw [applyKv_mk]
    exact applyFields_preserves_miss fs key value i f hget (hits_of_skip f key hsk)
  · have hmiss : ∀ f ∈ fs, f.hits key = false := by
      intro f hf
      cases hsk : f.isSkip with
      | true => exact hits_of_skip f key hsk
      | false => exact h f hf hsk
    rw [applyKv_mk, applyFields_all_miss fs key value hmiss]

/-- Witness for `skip_excluded`: a skipped leaf emits no metadata, and its
own key produces `UnknownKey` while the config (the skipped field included)
is untouched. -/
theorem skip_excluded_witness :
    optionsMeta (.mk [.leaf "hidden" none "" true .u32 (.vU32 7),
        .leaf "retries" none "" false .usize (.vUsize 3)]) =
      optionsMeta (.mk [.leaf "retries" none "" false .usize (.vUsize 3)]) ∧
    applyKv (.mk [.leaf "hidden" none "" true .u32 (.vU32 7),
        .leaf "retries" none "" false .usize (.vUsize 3)]) "hidden" "1" =
      (.error (.unknownKey "hidden"),
        .mk [.leaf "hidden" none "" true .u32 (.vU32 7),
          .leaf "retries" none "" false .usize (.vUsize 3)]) := by
  have h := skip_excluded [.leaf "hidden" none "" true .u32 (.vU32 7),
    .leaf "retries" none "" false .usize (.vUsize 3)]
  exact ⟨h.1, h.2.2.2 "hidden" "1" (by decide)⟩

theorem splitOnceList_fst_not_mem (delim : Char) :
    ∀ (L A B : List Char), splitOnceList delim L = some (A, B) → delim ∉ A
  | [], _, _, h => by simp [splitOnceList] at h
  | c :: cs, A, B, h => by
    rw [splitOnceList] at h
    by_cases hc : c = delim
    · rw [if_pos hc] at h
      obtain ⟨h1, _⟩ := Prod.mk.injEq .. ▸ Option.some.inj h
      subst h1
      exact List.not_mem_nil delim
    · rw [if_neg hc] at h
      cases hrec : splitOnceList delim cs with
      | none =>
        rw [hrec] at h
        exact absurd h (by simp)
      | some p =>
        rw [hrec] at h
        simp only [Option.map_some'] at h
        obtain ⟨h1, _⟩ := Prod.mk.injEq .. ▸ Option.some.inj h
        subst h1
        intro hmem
        rcases List.mem_cons.mp hmem with heq | hmem2
        · exact hc heq.symm
        · exact splitOnceList_fst_not_mem delim cs p.1 p.2 (by rw [hrec]) hmem2

theorem splitOnce_fst_no_delim (s : String) (delim : Char) (a b : String)
    (h : splitOnce s delim = some (a, b)) : delim ∉ a.data := by
  rw [splitOnce] at h
  cases hL : splitOnceList delim s.data with
  | none =>
    rw [hL] at h
    exact absurd h (by simp)
  | some p =>
    rw [hL] at h
    simp only [Option.map_some'] at h
    obtain ⟨h1, _⟩ := Prod.mk.injEq .. ▸ Option.some.inj h
    have : a.data = p.1 := by rw [← h1]
    rw [this]
    exact splitOnceList_fst_not_mem delim s.data p.1 p.2 hL

/-- A nested field whose namespace string contains a dot never fires: the
segment before the key's first dot cannot contain a dot. -/
theorem dotted_ns_no_hit (f : FieldInst) (key : String)
    (hleaf : f.isLeaf = false) (hdot : '.' ∈ f.nsName.data) :
    f.hits key = false := by
  cases f with
  | leaf name ren help sk t v => simp [FieldInst.isLeaf] at hleaf
  | nested name ren help nsAttr sk c =>
    simp only [FieldInst.nsName] at hdot
    cases sk with
    | true => exact hits_of_skip _ key rfl
    | false =>
      simp only [FieldInst.hits, Bool.not_false, Bool.true_and]
      cases hS : splitOnce key '.' with
      | none => rfl
      | some p =>
        simp only [decide_eq_false_iff_not]
        intro heq
        have hnd := splitOnce_fst_no_delim key '.' p.1 p.2 hS
        rw [heq] at hnd
        exact hnd hdot

/-- C9: a namespace field whose namespace string itself contains a `.` can
never be delegated to: dispatch compares only the (dot-free) segment before
the key's first dot against the namespace string, so the field is never
entered or modified by any `apply_kv` call, and a key addressed to it falls
through to `UnknownKey`. -/
theorem dotted_ns_unreachable :
    (∀ (fs : List FieldInst) (key value : String) (i : Nat) (f : FieldInst),
      fs[i]? = some f → f.isLeaf = false → '.' ∈ f.nsName.data →
      ((applyKv (.mk fs) key value).2).fields[i]? = some f) ∧
    applyKv (.mk [.nested "outer" none "" (some "a.b") false
        (.mk [.leaf "x" none "" false .u32 (.vU32 0)])]) "a.b.x" "1" =
      (.error (.unknownKey "a.b.x"),
        .mk [.nested "outer" none "" (some "a.b") false
          (.mk [.leaf "x" none "" false .u32 (.vU32 0)])]) := by
  constructor
  · intro fs key value i f hget hleaf hdot
    rw [applyKv_mk]
    exact applyFields_preserves_miss fs key value i f hget
      (dotted_ns_no_hit f key hleaf hdot)
  · rfl

/-- Witness for `dotted_ns_unreachable` at the concrete dotted-namespace
config: the field is returned unchanged. -/
theorem dotted_ns_unreachable_witness :
    ((applyKv (.mk [.nested "outer" none "" (some "a.b") false
        (.mk [.leaf "x" none "" false .u32 (.vU32 0)])]) "a.b.x" "1").2).fields[0]? =
      some (.nested "outer" none "" (some "a.b") false
        (.mk [.leaf "x" none "" false .u32 (.vU32 0)])) :=
  dotted_ns_unreachable.1 [.nested "outer" none "" (some "a.b") false
    (.mk [.leaf "x" none "" false .u32 (.vU32 0)])] "a.b.x" "1" 0
    (.nested "outer" none "" (some "a.b") false
      (.mk [.leaf "x" none "" false .u32 (.vU32 0)])) rfl rfl (by decide)

/-- A field never fires on the empty key: a leaf needs a nonempty local key
match, and the empty key has no dot to split on for a namespace. -/
theorem hits_empty_key (f : FieldInst) (h : f.isLeaf = true → f.localKey ≠ "") :
    f.hits "" = false := by
  cases f with
  | leaf name ren help sk t v =>
    have hne := h rfl
    simp only [FieldInst.localKey] at hne
    simp [FieldInst.hits, Ne.symm hne]
  | nested name ren help nsAttr sk c =>
    simp [FieldInst.hits, splitOnce, splitOnceList]

/-- C10: an option string beginning with `=` is not treated as malformed
`KEY=VALUE` syntax: `new_with_options` splits it into the empty key and the
remainder as value, and for a config none of whose leaf fields has the
empty local key, the result is `UnknownKey ""` rather than the
`expected KEY=VALUE` parse error. -/
theorem empty_key_unknown (fs : List FieldInst) (s : String)
    (h : ∀ f ∈ fs, f.isLeaf = true → f.localKey ≠ "") :
    newWithOptions (.mk fs) ["=" ++ s] = .error (.unknownKey "") := by
  have hsplit : splitOnce ("=" ++ s) '=' = some ("", s) := rfl
  have hA : applyKv (.mk fs) "" s = (.error (.unknownKey ""), .mk fs) := by
    rw [applyKv_mk, applyFields_all_miss fs "" s (fun f hf => hits_empty_key f (h f hf))]
  rw [newWithOptions, applyOptions_cons_error (.mk fs) (.mk fs) _ [] "" s _ hsplit hA]

/-- Witness for `empty_key_unknown`: `"=5"` on the spec §8 example yields
`UnknownKey ""`, not the malformed-option error. -/
theorem empty_key_unknown_witness :
    newWithOptions exampleConfig ["=5"] = .error (.unknownKey "") :=
  empty_key_unknown [.leaf "retries" none "" false .usize (.vUsize 3),
    .nested "backend" none "" none false exampleBackend] "5" (by decide)

/-! ## Scoped mutation: a successful override touches exactly one leaf -/

theorem splitOnceList_eq (delim : Char) :
    ∀ (L A B : List Char), splitOnceList delim L = some (A, B) → L = A ++ delim :: B
  | [], _, _, h => by simp [splitOnceList] at h
  | c :: cs, A, B, h => by
    rw [splitOnceList] at h
    by_cases hc : c = delim
    · rw [if_pos hc] at h
      obtain ⟨h1, h2⟩ := Prod.mk.injEq .. ▸ Option.some.inj h
      subst h1
      subst h2
      rw [hc]
      rfl
    · rw [if_neg hc] at h
      cases hrec : splitOnceList delim cs with
      | none =>
        rw [hrec] at h
        exact absurd h (by simp)
      | some p =>
        rw [hrec] at h
        simp only [Option.map_some'] at h
        obtain ⟨h1, h2⟩ := Prod.mk.injEq .. ▸ Option.some.inj h
        subst h1
        subst h2
        rw [List.cons_append]
        exact congrArg (c :: ·) (splitOnceList_eq delim cs p.1 p.2 (by rw [hrec]))

theorem splitOnce_eq_concat (s : String) (delim : Char) (a b : String)
    (h : splitOnce s delim = some (a, b)) :
    s.data = a.data ++ delim :: b.data := by
  rw [splitOnce] at h
  cases hL : splitOnceList delim s.data with
  | none =>
    rw [hL] at h
    exact absurd h (by simp)
  | some p =>
    rw [hL] at h
    simp only [Option.map_some'] at h
    obtain ⟨h1, h2⟩ := Prod.mk.injEq .. ▸ Option.some.inj h
    have ha : a.data = p.1 := by rw [← h1]
    have hb : b.data = p.2 := by rw [← h2]
    rw [ha, hb]
    exact splitOnceList_eq delim s.data p.1 p.2 hL

/-- A key that splits at its first dot into `(pre, rest)` is literally
`pre ++ "." ++ rest`. -/
theorem key_eq_pre_dot_rest (key pre rest : String)
    (hS : splitOnce key '.' = some (pre, rest)) :
    key = pre ++ "." ++ rest := by
  have hdata := splitOnce_eq_concat key '.' pre rest hS
  have hconc : (pre ++ "." ++ rest).data = pre.data ++ '.' :: rest.data := by
    rw [String.data_append, String.data_append, List.append_assoc]
    rfl
  have h2 : String.mk key.data = String.mk ((pre ++ "." ++ rest).data) := by
    rw [hdata, hconc]
  exact h2

mutual
/-- Frame property of `apply_kv` at config level: a successful override
changes the flattened leaf list only at one position, whose fully-qualified
path is exactly the dispatched key. -/
theorem applyKv_ok_frame :
    ∀ (c : Config) (key value : String),
      (applyKv c key value).1 = .ok () →
      ∃ (i : Nat) (w pv : LeafVal),
        (flattenLeaves c)[i]? = some (key, w) ∧
        flattenLeaves ((applyKv c key value).2) = (flattenLeaves c).set i (key, pv)
  | .mk fs, key, value, h => applyFields_ok_frame fs key value h

/-- Field-list version of `applyKv_ok_frame`. -/
theorem applyFields_ok_frame :
    ∀ (fs : List FieldInst) (key value : String),
      (applyFields fs key value).1 = .ok () →
      ∃ (i : Nat) (w pv : LeafVal),
        (flattenFields fs)[i]? = some (key, w) ∧
        flattenFields ((applyFields fs key value).2) = (flattenFields fs).set i (key, pv)
  | [], key, value, h => absurd h (by simp [applyFields])
  | g :: fs, key, value, h => by
    by_cases hhit : g.hits key = true
    · cases g with
      | leaf name ren help sk t v =>
        have hsk : sk = false := by
          cases sk
          · rfl
          · exact absurd hhit (by simp [FieldInst.hits])
        subst hsk
        have hk : key = ren.getD name := by simpa [FieldInst.hits] using hhit
        cases hP : parseLeaf t value with
        | error msg =>
          rw [applyFields_cons_leaf_parseError name ren help t v fs key value msg hk hP] at h
          exact absurd h (by simp)
        | ok v2 =>
          rw [applyFields_cons_leaf_ok name ren help t v v2 fs key value hk hP]
          refine ⟨0, v, v2, ?_, ?_⟩
          · rw [show flattenFields (.leaf name ren help false t v :: fs) =
                (ren.getD name, v) :: flattenFields fs from rfl,
              List.getElem?_cons_zero, hk]
          · rw [show flattenFields (.leaf name ren help false t v2 :: fs) =
                (ren.getD name, v2) :: flattenFields fs from rfl,
              show flattenFields (.leaf name ren help false t v :: fs) =
                (ren.getD name, v) :: flattenFields fs from rfl,
              List.set_cons_zero, hk]
      | nested name ren help nsAttr sk c =>
        have hsk : sk = false := by
          cases sk
          · rfl
          · exact absurd hhit (by simp [FieldInst.hits])
        subst hsk
        simp only [FieldInst.hits, Bool.not_false, Bool.true_and] at hhit
        cases hS : splitOnce key '.' with
        | none =>
          rw [hS] at hhit
          exact absurd hhit (by simp)
        | some p =>
          rw [hS] at hhit
          simp only [decide_eq_true_eq] at hhit
          have hS2 : splitOnce key '.' = some (p.1, p.2) := by rw [hS]
          rw [applyFields_cons_nested_hit name ren help nsAttr c fs key value
            p.1 p.2 hS2 hhit] at h ⊢
          obtain ⟨i, w, pv, hget, hset⟩ := applyKv_ok_frame c p.2 value h
          have hlen : i < (flattenLeaves c).length := (List.getElem?_eq_some_iff.mp hget).1
          have hkey : key = (nsAttr.getD (ren.getD name)) ++ "." ++ p.2 := by
            rw [← hhit]
            exact key_eq_pre_dot_rest key p.1 p.2 hS2
          refine ⟨i, w, pv, ?_, ?_⟩
          · rw [show flattenFields (.nested name ren help nsAttr false c :: fs) =
                (flattenLeaves c).map
                  (fun q => ((nsAttr.getD (ren.getD name)) ++ "." ++ q.1, q.2)) ++
                  flattenFields fs from rfl,
              List.getElem?_append_left (by rw [List.length_map]; exact hlen),
              List.getElem?_map, hget, hkey]
            rfl
          · rw [show flattenFields (.nested name ren help nsAttr false
                  (applyKv c p.2 value).2 :: fs) =
                (flattenLeaves ((applyKv c p.2 value).2)).map
                  (fun q => ((nsAttr.getD (ren.getD name)) ++ "." ++ q.1, q.2)) ++
                  flattenFields fs from rfl,
              show flattenFields (.nested name ren help nsAttr false c :: fs) =
                (flattenLeaves c).map
                  (fun q => ((nsAttr.getD (ren.getD name)) ++ "." ++ q.1, q.2)) ++
                  flattenFields fs from rfl,
              hset, List.map_set,
              List.set_append_left _ _ (by rw [List.length_map]; exact hlen), hkey]
    · have hmiss : g.hits key = false := by simpa using hhit
      rw [applyFields_cons_miss g fs key value hmiss] at h ⊢
      obtain ⟨i, w, pv, hget, hset⟩ := applyFields_ok_frame fs key value h
      cases g with
      | leaf name ren help sk t v =>
        refine ⟨i + 1, w, pv, ?_, ?_⟩
        · rw [show flattenFields (.leaf name ren help sk t v :: fs) =
              (ren.getD name, v) :: flattenFields fs from rfl,
            List.getElem?_cons_succ]
          exact hget
        · rw [show flattenFields
                (.leaf name ren help sk t v :: (applyFields fs key value).2) =
              (ren.getD name, v) :: flattenFields ((applyFields fs key value).2) from rfl,
            show flattenFields (.leaf name ren help sk t v :: fs) =
              (ren.getD name, v) :: flattenFields fs from rfl,
            List.set_cons_succ, hset]
      | nested name ren help nsAttr sk c =>
        refine ⟨(flattenLeaves c).length + i, w, pv, ?_, ?_⟩
        · rw [show flattenFields (.nested name ren help nsAttr sk c :: fs) =
              (flattenLeaves c).map
                (fun q => ((nsAttr.getD (ren.getD name)) ++ "." ++ q.1, q.2)) ++
                flattenFields fs from rfl,
            List.getElem?_append_right (by rw [List.length_map]; omega),
            List.length_map, Nat.add_sub_cancel_left]
          exact hget
        · rw [show flattenFields (.nested name ren help nsAttr sk c ::
                (applyFields fs key value).2) =
              (flattenLeaves c).map
                (fun q => ((nsAttr.getD (ren.getD name)) ++ "." ++ q.1, q.2)) ++
                flattenFields ((applyFields fs key value).2) from rfl,
            show flattenFields (.nested name ren help nsAttr sk c :: fs) =
              (flattenLeaves c).map
                (fun q => ((nsAttr.getD (ren.getD name)) ++ "." ++ q.1, q.2)) ++
                flattenFields fs from rfl,
            List.set_append_right _ _ (by rw [List.length_map]; omega),
            List.length_map, Nat.add_sub_cancel_left, hset]
end

/-- C7: applying a single override addressed to one leaf (for example
`backend.d_model=128`) mutates only that leaf: on success the flattened
leaf list of the config is unchanged except at the one position whose
fully-qualified path equals the applied key; every other field, siblings
included, keeps its prior value. -/
theorem apply_kv_scoped_mutation (c : Config) (key value : String)
    (h : (applyKv c key value).1 = .ok ()) :
    ∃ (i : Nat) (w pv : LeafVal),
      (flattenLeaves c)[i]? = some (key, w) ∧
      flattenLeaves ((applyKv c key value).2) = (flattenLeaves c).set i (key, pv) :=
  applyKv_ok_frame c key value h

/-- Witness for `apply_kv_scoped_mutation`: `backend.d_model=128` on the
spec §8 example config. -/
theorem apply_kv_scoped_mutation_witness :
    ∃ (i : Nat) (w pv : LeafVal),
      (flattenLeaves exampleConfig)[i]? = some ("backend.d_model", w) ∧
      flattenLeaves ((applyKv exampleConfig "backend.d_model" "128").2) =
        (flattenLeaves exampleConfig).set i ("backend.d_model", pv) :=
  apply_kv_scoped_mutation exampleConfig "backend.d_model" "128" rfl

end Clikeys
